import Mathlib

set_option maxHeartbeats 1000000

set_option maxRecDepth 2000

/-! Shallow embedding of src/main.py (TTS-Pipe) and proofs about it.

Python strings are modelled as lists of Unicode characters (`PyStr`), so the
Python `len` is `List.length`, string concatenation is list append, and
`text.split` is `List.splitOn`.  Byte strings are lists of naturals. -/

abbrev PyStr := List Char

abbrev Bytes := List Nat

/-- Models the module constant `LETTERS_PER_FRADMENT = 2500` (sic, src/main.py line 29). -/
def LETTERS_PER_FRADMENT : Nat := 2500

/-- Models the module constant `RETRY_COUNT = 3` (src/main.py line 28). -/
def RETRY_COUNT : Nat := 3

/-- Models the Python test `not para.strip()`: true iff the string consists of
whitespace only (equivalently, it is empty after trimming). -/
def isBlank (s : PyStr) : Bool := s.all Char.isWhitespace

/-- Models `text.split` on the newline character (src/main.py line 122). -/
def splitNl (text : PyStr) : List PyStr := text.splitOn '\n'

/-- One iteration of the fragment-building loop of `tts_synthesize`
(src/main.py lines 122-128).  The accumulator holds the fragments list in
reverse order, so the Python `fragments[-1]` is the head of the accumulator and
`fragments.append` is cons. -/
def fragStep (T : Nat) (acc : List PyStr) (para : PyStr) : List PyStr :=
  if isBlank para then acc
  else
    match acc with
    | [] => [para]
    | last :: rest =>
      if last.length < T then (last ++ ' ' :: para) :: rest
      else para :: last :: rest

/-- The fragment sequence built by the loop in `tts_synthesize`
(src/main.py lines 121-128), in order. -/
def mkFragments (T : Nat) (paras : List PyStr) : List PyStr :=
  (paras.foldl (fragStep T) []).reverse

/-- Joins a list of strings with single spaces, the separator the fragment loop
inserts between appended paragraphs. -/
def sjoin : List PyStr → PyStr
  | [] => []
  | p :: ps => ps.foldl (fun acc q => acc ++ ' ' :: q) p

theorem sjoin_concat (l : List PyStr) (y : PyStr) :
    sjoin (l ++ [y]) = if l = [] then y else sjoin l ++ ' ' :: y := by
  cases l with
  | nil => simp [sjoin]
  | cons p ps => simp [sjoin, List.foldl_append]

/-- Each fragment is the space-join of one contiguous block of the non-blank
paragraphs: the key invariant of the fragment loop, proved by induction over
the remaining paragraphs with the accumulator generalized.  The accumulator is
presented as `B.map sjoin` where `B` lists the paragraph blocks in reverse. -/
theorem foldl_fragStep_blocks (T : Nat) (paras : List PyStr) :
    ∀ B : List (List PyStr), (∀ b ∈ B, b ≠ []) →
      ∃ C : List (List PyStr),
        paras.foldl (fragStep T) (B.map sjoin) = C.map sjoin ∧
        (∀ b ∈ C, b ≠ []) ∧
        C.reverse.flatten =
          B.reverse.flatten ++ paras.filter (fun p => isBlank p = false) := by
  induction paras with
  | nil => exact fun B hB => ⟨B, rfl, hB, by simp⟩
  | cons p ps ih =>
    intro B hB
    by_cases hp : isBlank p
    · have hstep : fragStep T (B.map sjoin) p = B.map sjoin := by
        simp [fragStep, hp]
      obtain ⟨C, hC1, hC2, hC3⟩ := ih B hB
      refine ⟨C, ?_, hC2, ?_⟩
      · simpa [hstep] using hC1
      · simpa [List.filter_cons, hp] using hC3
    · have hsp : sjoin [p] = p := by simp [sjoin]
      cases B with
      | nil =>
        have hstep : fragStep T (([] : List (List PyStr)).map sjoin) p
            = [[p]].map sjoin := by
          simp [fragStep, hp, hsp]
        obtain ⟨C, hC1, hC2, hC3⟩ := ih [[p]] (by simp)
        refine ⟨C, ?_, hC2, ?_⟩
        · rw [List.foldl_cons, hstep]; exact hC1
        · simpa [List.filter_cons, hp] using hC3
      | cons b bs =>
        have hbne : b ≠ [] := hB b (by simp)
        by_cases hlen : (sjoin b).length < T
        · have hstep : fragStep T ((b :: bs).map sjoin) p
              = ((b ++ [p]) :: bs).map sjoin := by
            simp [fragStep, hp, hlen, sjoin_concat, hbne]
          obtain ⟨C, hC1, hC2, hC3⟩ := ih ((b ++ [p]) :: bs) (by
            intro x hx
            rcases List.mem_cons.mp hx with h | h
            · subst h; simp
            · exact hB x (List.mem_cons_of_mem _ h))
          refine ⟨C, ?_, hC2, ?_⟩
          · rw [List.foldl_cons, hstep]; exact hC1
          · rw [hC3]; simp [List.filter_cons, hp]
        · have hstep : fragStep T ((b :: bs).map sjoin) p
              = ([p] :: b :: bs).map sjoin := by
            simp [fragStep, hp, hlen, hsp]
          obtain ⟨C, hC1, hC2, hC3⟩ := ih ([p] :: b :: bs) (by
            intro x hx
            rcases List.mem_cons.mp hx with h | h
            · subst h; simp
            · exact hB x h)
          refine ⟨C, ?_, hC2, ?_⟩
          · rw [List.foldl_cons, hstep]; exact hC1
          · rw [hC3]; simp [List.filter_cons, hp]

/-- C1.  For every input document containing at least one non-empty paragraph,
the Fragmenter output is a blockwise space-join of exactly the non-blank
paragraphs in original order: there is a partition of the non-blank paragraphs
(in order, each block non-empty) such that each fragment is the space-join of
its block.  Hence concatenating the fragments, ignoring the single join-spaces
inserted between appended paragraphs, reproduces every non-empty paragraph in
original order exactly once with no truncation, duplication, or omission. -/
theorem C1_fragmenter_reproduces_paragraphs (T : Nat) (text : PyStr)
    (h : ∃ p ∈ splitNl text, isBlank p = false) :
    ∃ blocks : List (List PyStr),
      (∀ b ∈ blocks, b ≠ []) ∧
      blocks.flatten = (splitNl text).filter (fun p => isBlank p = false) ∧
      mkFragments T (splitNl text) = blocks.map sjoin := by
  clear h
  obtain ⟨C, hC1, hC2, hC3⟩ := foldl_fragStep_blocks T (splitNl text) [] (by simp)
  refine ⟨C.reverse, fun b hb => hC2 b (List.mem_reverse.mp hb), by simpa using hC3, ?_⟩
  simp only [List.map_nil] at hC1
  simp [mkFragments, hC1, List.map_reverse]

theorem C1_fragmenter_reproduces_paragraphs_witness :
    (∃ p ∈ splitNl ['a', 'b'], isBlank p = false) ∧
    ∃ blocks : List (List PyStr),
      (∀ b ∈ blocks, b ≠ []) ∧
      blocks.flatten = (splitNl ['a', 'b']).filter (fun p => isBlank p = false) ∧
      mkFragments 2500 (splitNl ['a', 'b']) = blocks.map sjoin :=
  ⟨by decide, C1_fragmenter_reproduces_paragraphs 2500 ['a', 'b'] (by decide)⟩

theorem isBlank_cons (c : Char) (s : PyStr) :
    isBlank (c :: s) = (c.isWhitespace && isBlank s) := by
  simp [isBlank]

theorem fragStep_blank {T : Nat} {acc : List PyStr} {p : PyStr}
    (h : isBlank p = true) : fragStep T acc p = acc := by
  simp [fragStep, h]

theorem fragStep_start {T : Nat} {p : PyStr} (h : isBlank p = false) :
    fragStep T [] p = [p] := by
  simp [fragStep, h]

theorem fragStep_append {T : Nat} {last : PyStr} {rest : List PyStr} {p : PyStr}
    (h : isBlank p = false) (hlen : last.length < T) :
    fragStep T (last :: rest) p = (last ++ ' ' :: p) :: rest := by
  simp [fragStep, h, hlen]

theorem fragStep_new {T : Nat} {last : PyStr} {rest : List PyStr} {p : PyStr}
    (h : isBlank p = false) (hlen : ¬ last.length < T) :
    fragStep T (last :: rest) p = p :: last :: rest := by
  simp [fragStep, h, hlen]

theorem dropLast_reverse_eq (l : List PyStr) : l.reverse.dropLast = l.tail.reverse := by
  cases l with
  | nil => rfl
  | cons a t => simp [List.reverse_cons, List.dropLast_concat]

/-- The fragment loop never produces a blank string: every element of the
accumulator stays non-blank because appended paragraphs are non-blank. -/
theorem foldl_fragStep_nonblank (T : Nat) :
    ∀ (l : List PyStr) (acc : List PyStr), (∀ f ∈ acc, isBlank f = false) →
      ∀ f ∈ l.foldl (fragStep T) acc, isBlank f = false := by
  intro l
  induction l with
  | nil => exact fun acc h => h
  | cons p ps ih =>
    intro acc hacc
    rw [List.foldl_cons]
    apply ih
    intro f hf
    cases hb : isBlank p with
    | true => rw [fragStep_blank hb] at hf; exact hacc f hf
    | false =>
      cases acc with
      | nil =>
        rw [fragStep_start hb] at hf
        simp only [List.mem_singleton] at hf
        subst hf; exact hb
      | cons last rest =>
        by_cases hlen : last.length < T
        · rw [fragStep_append hb hlen] at hf
          rcases List.mem_cons.mp hf with h | h
          · subst h
            have hl : isBlank last = false := hacc last (by simp)
            simp only [isBlank, List.all_append] at hl ⊢
            simp [hl]
          · exact hacc f (List.mem_cons_of_mem _ h)
        · rw [fragStep_new hb hlen] at hf
          rcases List.mem_cons.mp hf with h | h
          · subst h; exact hb
          · exact hacc f h

/-- Every element of the accumulator other than the current (head) fragment has
reached the threshold: a new fragment is only started once the guard
`len < T` on line 125 fails for the current one. -/
theorem foldl_fragStep_tail_long (T : Nat) :
    ∀ (l : List PyStr) (acc : List PyStr), (∀ f ∈ acc.tail, T ≤ f.length) →
      ∀ f ∈ (l.foldl (fragStep T) acc).tail, T ≤ f.length := by
  intro l
  induction l with
  | nil => exact fun acc h => h
  | cons p ps ih =>
    intro acc hacc
    rw [List.foldl_cons]
    apply ih
    intro f hf
    cases hb : isBlank p with
    | true => rw [fragStep_blank hb] at hf; exact hacc f hf
    | false =>
      cases acc with
      | nil => rw [fragStep_start hb] at hf; simp at hf
      | cons last rest =>
        by_cases hlen : last.length < T
        · rw [fragStep_append hb hlen] at hf
          exact hacc f hf
        · rw [fragStep_new hb hlen] at hf
          simp only [List.tail_cons] at hf ⊢
          rcases List.mem_cons.mp hf with h | h
          · subst h; omega
          · exact hacc f h

/-- C5.  Every fragment the Fragmenter produces is non-empty after trimming
(it contains a non-whitespace character, so `para.strip()` is non-empty), and
every fragment except possibly the last has length at least the configured
threshold T (2500 by default). -/
theorem C5_fragment_invariants (T : Nat) (paras : List PyStr) :
    (∀ f ∈ mkFragments T paras, isBlank f = false) ∧
    (∀ f ∈ (mkFragments T paras).dropLast, T ≤ f.length) := by
  constructor
  · intro f hf
    exact foldl_fragStep_nonblank T paras [] (by simp) f
      (List.mem_reverse.mp hf)
  · intro f hf
    rw [mkFragments, dropLast_reverse_eq] at hf
    exact foldl_fragStep_tail_long T paras [] (by simp) f
      (List.mem_reverse.mp hf)

/-- A fragment that has reached the threshold is never modified again by the
loop: it is still an element of any later accumulator. -/
theorem mem_foldl_fragStep_of_long (T : Nat) (q : PyStr) (hq : T ≤ q.length) :
    ∀ (l : List PyStr) (acc : List PyStr), q ∈ acc → q ∈ l.foldl (fragStep T) acc := by
  intro l
  induction l with
  | nil => exact fun acc h => h
  | cons p ps ih =>
    intro acc hacc
    rw [List.foldl_cons]
    apply ih
    cases hb : isBlank p with
    | true => rw [fragStep_blank hb]; exact hacc
    | false =>
      cases acc with
      | nil => cases hacc
      | cons last rest =>
        by_cases hlen : last.length < T
        · rw [fragStep_append hb hlen]
          rcases List.mem_cons.mp hacc with h | h
          · subst h; omega
          · exact List.mem_cons_of_mem _ h
        · rw [fragStep_new hb hlen]
          exact List.mem_cons_of_mem _ hacc

/-- A paragraph always lands contiguously inside whatever fragment holds it:
once some accumulator element contains p as a contiguous segment, that stays
true for the rest of the loop. -/
theorem foldl_fragStep_contiguous (T : Nat) (p : PyStr) :
    ∀ (l : List PyStr) (acc : List PyStr),
      (∃ f ∈ acc, ∃ u v, f = u ++ p ++ v) →
      ∃ f ∈ l.foldl (fragStep T) acc, ∃ u v, f = u ++ p ++ v := by
  intro l
  induction l with
  | nil => exact fun acc h => h
  | cons q qs ih =>
    intro acc hacc
    rw [List.foldl_cons]
    apply ih
    obtain ⟨f, hf, u, v, huv⟩ := hacc
    cases hb : isBlank q with
    | true => rw [fragStep_blank hb]; exact ⟨f, hf, u, v, huv⟩
    | false =>
      cases acc with
      | nil => cases hf
      | cons last rest =>
        by_cases hlen : last.length < T
        · rw [fragStep_append hb hlen]
          rcases List.mem_cons.mp hf with h | h
          · subst h
            exact ⟨f ++ ' ' :: q, by simp, u, v ++ ' ' :: q, by simp [huv]⟩
          · exact ⟨f, List.mem_cons_of_mem _ h, u, v, huv⟩
        · rw [fragStep_new hb hlen]
          exact ⟨f, List.mem_cons_of_mem _ hf, u, v, huv⟩

/-- Says that when the loop reaches this point of the paragraph list, it will
start a new fragment: either no fragment has been started on the paragraphs of
`pre`, or the current (head) fragment has already reached the threshold. -/
def startsFresh (T : Nat) (pre : List PyStr) : Prop :=
  ∀ last rest, pre.foldl (fragStep T) [] = last :: rest → T ≤ last.length

/-- C7 (amended).  A paragraph longer than the threshold is never truncated or
split across fragments: it appears contiguously inside a single fragment.  It
can, however, be combined with the preceding short paragraphs into a shared
fragment; only when it starts a new fragment (no fragment yet, or the current
fragment has already reached the threshold) does it become a fragment by
itself, and then no later paragraph is ever appended to it. -/
theorem C7_long_paragraph_amended (T : Nat) (pre post : List PyStr) (p : PyStr)
    (hp : isBlank p = false) (hT : T < p.length) :
    (∃ f ∈ mkFragments T (pre ++ p :: post), ∃ u v, f = u ++ p ++ v) ∧
    (startsFresh T pre → p ∈ mkFragments T (pre ++ p :: post)) := by
  have hfold : (pre ++ p :: post).foldl (fragStep T) []
      = post.foldl (fragStep T) (fragStep T (pre.foldl (fragStep T) []) p) := by
    rw [List.foldl_append, List.foldl_cons]
  constructor
  · rw [mkFragments]
    have hmem : ∃ f ∈ fragStep T (pre.foldl (fragStep T) []) p, ∃ u v, f = u ++ p ++ v := by
      cases pre.foldl (fragStep T) [] with
      | nil => rw [fragStep_start hp]; exact ⟨p, by simp, [], [], by simp⟩
      | cons last rest =>
        by_cases hlen : last.length < T
        · rw [fragStep_append hp hlen]
          exact ⟨last ++ ' ' :: p, by simp, last ++ [' '], [], by simp⟩
        · rw [fragStep_new hp hlen]
          exact ⟨p, by simp, [], [], by simp⟩
    obtain ⟨f, hf, u, v, huv⟩ := foldl_fragStep_contiguous T p post _ hmem
    exact ⟨f, by rw [hfold]; exact List.mem_reverse.mpr hf, u, v, huv⟩
  · intro hstart
    rw [mkFragments, hfold]
    apply List.mem_reverse.mpr
    apply mem_foldl_fragStep_of_long T p (by omega)
    cases hacc : pre.foldl (fragStep T) [] with
    | nil => rw [fragStep_start hp]; simp
    | cons last rest =>
      have hlong : T ≤ last.length := hstart last rest hacc
      rw [fragStep_new hp (by omega)]
      simp

/-- Concrete run of the amended C7: threshold 2, paragraph "abc" of length 3
standing first, so it starts a fragment and stays a fragment by itself. -/
theorem C7_long_paragraph_amended_witness :
    isBlank ['a', 'b', 'c'] = false ∧ 2 < (['a', 'b', 'c'] : PyStr).length ∧
    ((∃ f ∈ mkFragments 2 ([] ++ ['a', 'b', 'c'] :: [['d']]), ∃ u v, f = u ++ ['a', 'b', 'c'] ++ v) ∧
     (startsFresh 2 [] → ['a', 'b', 'c'] ∈ mkFragments 2 ([] ++ ['a', 'b', 'c'] :: [['d']]))) :=
  ⟨by decide, by decide,
   C7_long_paragraph_amended 2 [] [['d']] ['a', 'b', 'c'] (by decide) (by decide)⟩

/-- C7 (counterexample to the claim as stated).  With the default threshold
2500, a document consisting of the short paragraph "a" followed by a
4000-character paragraph produces a single fragment combining both paragraphs:
the long paragraph does not become a fragment by itself, contrary to the claim
that it is never combined with other paragraphs into a shared fragment. -/
theorem C7_long_paragraph_counterexample :
    List.replicate 4000 'x' ∉
      mkFragments 2500 [['a'], List.replicate 4000 'x'] ∧
    mkFragments 2500 [['a'], List.replicate 4000 'x']
      = [['a'] ++ ' ' :: List.replicate 4000 'x'] := by
  have hws : Char.isWhitespace 'x' = false := by decide
  have hx : isBlank (List.replicate 4000 'x') = false := by
    rw [show (4000 : Nat) = 3999 + 1 from rfl, List.replicate_succ,
      isBlank_cons, hws, Bool.false_and]
  have h1 : fragStep 2500 [] ['a'] = [['a']] :=
    fragStep_start (by decide)
  have h2 : fragStep 2500 [['a']] (List.replicate 4000 'x')
      = [['a'] ++ ' ' :: List.replicate 4000 'x'] := by
    rw [fragStep_append hx (by simp)]
  have hfrag : mkFragments 2500 [['a'], List.replicate 4000 'x']
      = [['a'] ++ ' ' :: List.replicate 4000 'x'] := by
    rw [mkFragments, List.foldl_cons, List.foldl_cons, List.foldl_nil, h1, h2]
    rfl
  refine ⟨?_, hfrag⟩
  rw [hfrag]
  intro hmem
  simp only [List.mem_singleton] at hmem
  have hlen := congrArg List.length hmem
  simp only [List.length_replicate, List.length_append, List.length_cons,
    List.length_singleton] at hlen
  omega

theorem char_eq_of_toNat_eq {a b : Char} (h : a.toNat = b.toNat) : a = b := by
  apply Char.ext
  exact UInt32.ext h

/-- The decimal digits of n as characters, most significant first.  The first
argument is fuel for the recursion (which divides by 10); fuel n+1 always
suffices, see `decVal_decDigitsAux`. -/
def decDigitsAux : Nat → Nat → List Char
  | 0, _ => []
  | fuel + 1, n =>
    if n < 10 then [Nat.digitChar n]
    else decDigitsAux fuel (n / 10) ++ [Nat.digitChar (n % 10)]

/-- Models the Python format specifier 03d: the decimal representation of n,
left-padded with the digit zero to a minimum width of three characters.  For
n below 1000 this is exactly the three decimal digits of n. -/
def pad3 (n : Nat) : List Char :=
  if n < 1000 then
    [Nat.digitChar (n / 100), Nat.digitChar (n / 10 % 10), Nat.digitChar (n % 10)]
  else decDigitsAux (n + 1) n

/-- Models the chunk filename `part_{idx:03d}.wav` of src/main.py line 148. -/
def partName (idx : Nat) : List Char := "part_".data ++ pad3 idx ++ ".wav".data

/-- Reads a digit string back as a number (leading zeros are harmless). -/
def decVal (l : List Char) : Nat := l.foldl (fun a c => 10 * a + (c.toNat - 48)) 0

theorem digitChar_toNat {d : Nat} (h : d < 10) : (Nat.digitChar d).toNat = 48 + d := by
  interval_cases d <;> decide

theorem decVal_append_digit (l : List Char) (c : Char) :
    decVal (l ++ [c]) = 10 * decVal l + (c.toNat - 48) := by
  simp [decVal, List.foldl_append]

theorem decVal_cons (c : Char) (l : List Char) :
    decVal (c :: l) = l.foldl (fun a x => 10 * a + (x.toNat - 48)) (c.toNat - 48) := by
  simp [decVal]

theorem decVal_decDigitsAux :
    ∀ (fuel n : Nat), n < 10 ^ fuel → decVal (decDigitsAux fuel n) = n := by
  intro fuel
  induction fuel with
  | zero =>
    intro n hn
    interval_cases n
    rfl
  | succ fuel ih =>
    intro n hn
    rw [decDigitsAux]
    by_cases h10 : n < 10
    · rw [if_pos h10]
      have := digitChar_toNat h10
      simp [decVal, this]
    · rw [if_neg h10]
      rw [decVal_append_digit]
      have hdiv : n / 10 < 10 ^ fuel := by
        apply Nat.div_lt_of_lt_mul
        rw [Nat.pow_succ] at hn
        omega
      rw [ih (n / 10) hdiv, digitChar_toNat (Nat.mod_lt n (by omega))]
      omega

theorem decVal_pad3 (n : Nat) : decVal (pad3 n) = n := by
  rw [pad3]
  by_cases h : n < 1000
  · rw [if_pos h]
    have h2 : n / 100 < 10 := by omega
    have h1 : n / 10 % 10 < 10 := by omega
    have h0 : n % 10 < 10 := by omega
    simp [decVal, digitChar_toNat h2, digitChar_toNat h1, digitChar_toNat h0]
    omega
  · rw [if_neg h]
    apply decVal_decDigitsAux
    calc n < 10 ^ n := Nat.lt_pow_self (by norm_num) n
    _ ≤ 10 ^ (n + 1) := Nat.pow_le_pow_right (by norm_num) (Nat.le_succ n)

theorem pad3_injective {m n : Nat} (h : pad3 m = pad3 n) : m = n := by
  have := congrArg decVal h
  rwa [decVal_pad3, decVal_pad3] at this

theorem partName_injective {m n : Nat} (h : partName m = partName n) : m = n := by
  rw [partName, partName] at h
  exact pad3_injective (List.append_cancel_left (List.append_cancel_right h))

/-- Lexicographic comparison of strings by Unicode code point: the string
less-than that Python `sorted` uses on the chunk filenames. -/
def lexLtB : List Char → List Char → Bool
  | _, [] => false
  | [], _ :: _ => true
  | a :: as, b :: bs =>
    if a.toNat < b.toNat then true
    else if b.toNat < a.toNat then false
    else lexLtB as bs

/-- The corresponding non-strict comparison. -/
def lexLeB (a b : List Char) : Bool := !(lexLtB b a)

theorem lexLtB_cons (a b : Char) (as bs : List Char) :
    lexLtB (a :: as) (b :: bs)
      = if a.toNat < b.toNat then true
        else if b.toNat < a.toNat then false
        else lexLtB as bs := rfl

theorem lexLtB_asymm : ∀ a b : List Char, lexLtB a b = true → lexLtB b a = false := by
  intro a
  induction a with
  | nil => intro b _; cases b <;> rfl
  | cons x xs ih =>
    intro b hab
    cases b with
    | nil => cases hab
    | cons y ys =>
      rw [lexLtB_cons] at hab ⊢
      by_cases hxy : x.toNat < y.toNat
      · rw [if_neg (show ¬ y.toNat < x.toNat by omega), if_pos hxy]
      · rw [if_neg hxy] at hab
        by_cases hyx : y.toNat < x.toNat
        · rw [if_pos hyx] at hab; cases hab
        · rw [if_neg hyx] at hab
          rw [if_neg hyx, if_neg hxy]
          exact ih ys hab

theorem lexLtB_trans : ∀ a b c : List Char,
    lexLtB a b = true → lexLtB b c = true → lexLtB a c = true := by
  intro a
  induction a with
  | nil =>
    intro b c hab hbc
    cases b with
    | nil => cases hab
    | cons y ys => cases c with
      | nil => cases hbc
      | cons z zs => rfl
  | cons x xs ih =>
    intro b c hab hbc
    cases b with
    | nil => cases hab
    | cons y ys =>
      cases c with
      | nil => cases hbc
      | cons z zs =>
        rw [lexLtB_cons] at hab hbc ⊢
        by_cases hxy : x.toNat < y.toNat
        · by_cases hyz : y.toNat < z.toNat
          · rw [if_pos (show x.toNat < z.toNat by omega)]
          · rw [if_neg hyz] at hbc
            by_cases hzy : z.toNat < y.toNat
            · rw [if_pos hzy] at hbc; cases hbc
            · rw [if_pos (show x.toNat < z.toNat by omega)]
        · rw [if_neg hxy] at hab
          by_cases hyx : y.toNat < x.toNat
          · rw [if_pos hyx] at hab; cases hab
          · rw [if_neg hyx] at hab
            by_cases hyz : y.toNat < z.toNat
            · rw [if_pos (by omega)]
            · rw [if_neg hyz] at hbc
              by_cases hzy : z.toNat < y.toNat
              · rw [if_pos hzy] at hbc; cases hbc
              · rw [if_neg hzy] at hbc
                rw [if_neg (by omega), if_neg (by omega)]
                exact ih ys zs hab hbc

theorem lexLtB_eq_of_not_lt : ∀ a b : List Char,
    lexLtB a b = false → lexLtB b a = false → a = b := by
  intro a
  induction a with
  | nil =>
    intro b hab _
    cases b with
    | nil => rfl
    | cons y ys => cases hab
  | cons x xs ih =>
    intro b hab hba
    cases b with
    | nil => cases hba
    | cons y ys =>
      rw [lexLtB_cons] at hab hba
      by_cases hxy : x.toNat < y.toNat
      · rw [if_pos hxy] at hab; cases hab
      · rw [if_neg hxy] at hab
        by_cases hyx : y.toNat < x.toNat
        · rw [if_pos hyx] at hba; cases hba
        · rw [if_neg hyx] at hab
          rw [if_neg hyx, if_neg hxy] at hba
          have hchar : x = y := char_eq_of_toNat_eq (by omega)
          rw [hchar, ih ys hab hba]

theorem lexLtB_append_left (p : List Char) :
    ∀ a b, lexLtB (p ++ a) (p ++ b) = lexLtB a b := by
  induction p with
  | nil => intro a b; rfl
  | cons c cs ih =>
    intro a b
    rw [List.cons_append, List.cons_append, lexLtB_cons,
      if_neg (Nat.lt_irrefl _), if_neg (Nat.lt_irrefl _)]
    exact ih a b

theorem lexLtB_append_of_lt : ∀ (x y u v : List Char), x.length = y.length →
    lexLtB x y = true → lexLtB (x ++ u) (y ++ v) = true := by
  intro x
  induction x with
  | nil =>
    intro y u v hl hxy
    cases y with
    | nil => cases hxy
    | cons b bs => simp at hl
  | cons a as ih =>
    intro y u v hl hxy
    cases y with
    | nil => simp at hl
    | cons b bs =>
      rw [lexLtB_cons] at hxy
      rw [List.cons_append, List.cons_append, lexLtB_cons]
      by_cases hab : a.toNat < b.toNat
      · rw [if_pos hab]
      · rw [if_neg hab] at hxy ⊢
        by_cases hba : b.toNat < a.toNat
        · rw [if_pos hba] at hxy; cases hxy
        · rw [if_neg hba] at hxy ⊢
          exact ih bs u v (by simpa using hl) hxy

theorem pad3_length_of_lt {n : Nat} (h : n < 1000) : (pad3 n).length = 3 := by
  rw [pad3, if_pos h]
  rfl

/-- Below 1000 the zero-padded names compare lexicographically exactly as the
numbers compare: the three digit characters are compared most significant
first. -/
theorem pad3_lt {i j : Nat} (hij : i < j) (hj : j < 1000) :
    lexLtB (pad3 i) (pad3 j) = true := by
  have hi : i < 1000 := by omega
  rw [pad3, if_pos hi, pad3, if_pos hj]
  have di2 : i / 100 < 10 := by omega
  have di1 : i / 10 % 10 < 10 := by omega
  have di0 : i % 10 < 10 := by omega
  have dj2 : j / 100 < 10 := by omega
  have dj1 : j / 10 % 10 < 10 := by omega
  have dj0 : j % 10 < 10 := by omega
  have hcase : i / 100 < j / 100 ∨ (i / 100 = j / 100 ∧ (i / 10 % 10 < j / 10 % 10 ∨
      (i / 10 % 10 = j / 10 % 10 ∧ i % 10 < j % 10))) := by omega
  rw [lexLtB_cons]
  rcases hcase with h2 | ⟨h2, hrest⟩
  · rw [if_pos (by rw [digitChar_toNat di2, digitChar_toNat dj2]; omega)]
  · rw [if_neg (by rw [digitChar_toNat di2, digitChar_toNat dj2]; omega),
      if_neg (by rw [digitChar_toNat di2, digitChar_toNat dj2]; omega),
      lexLtB_cons]
    rcases hrest with h1 | ⟨h1, h0⟩
    · rw [if_pos (by rw [digitChar_toNat di1, digitChar_toNat dj1]; omega)]
    · rw [if_neg (by rw [digitChar_toNat di1, digitChar_toNat dj1]; omega),
        if_neg (by rw [digitChar_toNat di1, digitChar_toNat dj1]; omega),
        lexLtB_cons,
        if_pos (by rw [digitChar_toNat di0, digitChar_toNat dj0]; omega)]

/-- Chunk filenames with indices below 1000 sort lexicographically in index
order, because the zero-padding makes them equal length. -/
theorem partName_lt {i j : Nat} (hij : i < j) (hj : j < 1000) :
    lexLtB (partName i) (partName j) = true := by
  rw [partName, partName, List.append_assoc, List.append_assoc, lexLtB_append_left]
  exact lexLtB_append_of_lt _ _ _ _
    (by rw [pad3_length_of_lt (by omega), pad3_length_of_lt hj]) (pad3_lt hij hj)

/-- Models the glob pattern `part_*.wav` on a single filename: it must start
with "part_", end with ".wav", and be long enough that the two do not
overlap (shorter names cannot satisfy both anyway). -/
def isPartFile (name : List Char) : Bool :=
  9 ≤ name.length
    && name.take 5 == "part_".data
    && name.drop (name.length - 4) == ".wav".data

theorem isPartFile_partName (i : Nat) : isPartFile (partName i) = true := by
  have hp5 : ("part_".data : List Char).length = 5 := rfl
  have hw4 : (".wav".data : List Char).length = 4 := rfl
  rw [isPartFile, partName]
  have hlen : ("part_".data ++ pad3 i ++ ".wav".data).length = 9 + (pad3 i).length := by
    simp [List.length_append, hp5, hw4]; omega
  have htake : ("part_".data ++ pad3 i ++ ".wav".data).take 5 = "part_".data := by
    rw [List.append_assoc]
    exact List.take_left' hp5
  have hdrop : ("part_".data ++ pad3 i ++ ".wav".data).drop
      (("part_".data ++ pad3 i ++ ".wav".data).length - 4) = ".wav".data := by
    rw [hlen]
    have : 9 + (pad3 i).length - 4 = ("part_".data ++ pad3 i).length := by
      simp [List.length_append, hp5]; omega
    rw [this]
    exact List.drop_left _ _
  rw [htake, hdrop, hlen]
  simp

/-- The WAV parameter tuple returned by the Python wave module getparams:
(nchannels, sampwidth, framerate, nframes, comptype, compname).  The format in
the sense of the spec is the triple (framerate, nchannels, sampwidth); the
tuple additionally carries the frame count and the compression fields. -/
structure WavParams where
  nchannels : Nat
  sampwidth : Nat
  framerate : Nat
  nframes : Nat
  comptype : List Char
  compname : List Char
deriving DecidableEq

/-- A parsed WAV file: its parameter tuple and the byte payload that
readframes(getnframes()) returns. -/
structure WavFile where
  params : WavParams
  frames : Bytes
deriving DecidableEq

/-- A directory entry of the scratch area as the Merger sees it: a filename
and the WAV file stored under it. -/
abbrev DirEntry := List Char × WavFile

/-- Filename order used by the Python sorted() on the glob listing. -/
def entryLe (a b : DirEntry) : Prop := lexLeB a.1 b.1 = true

instance : DecidableRel entryLe :=
  fun a b => inferInstanceAs (Decidable (_ = true))

instance : IsTotal DirEntry entryLe := by
  constructor
  intro a b
  rw [entryLe, entryLe, lexLeB, lexLeB]
  cases h : lexLtB b.1 a.1 with
  | false => left; simp
  | true => right; simp [lexLtB_asymm _ _ h]

instance : IsTrans DirEntry entryLe := by
  constructor
  intro a b c hab hbc
  rw [entryLe, lexLeB] at hab hbc ⊢
  simp only [Bool.not_eq_true'] at hab hbc ⊢
  cases hca : lexLtB c.1 a.1 with
  | false => rfl
  | true =>
    exfalso
    cases hax : lexLtB a.1 b.1 with
    | true =>
      have := lexLtB_trans _ _ _ hca hax
      rw [this] at hbc; cases hbc
    | false =>
      have heq : a.1 = b.1 := lexLtB_eq_of_not_lt _ _ hax hab
      rw [heq] at hca
      rw [hca] at hbc; cases hbc

/-- The sorted chunk listing `sorted(source_dir.glob(...))` of src/main.py
line 172: filter the directory by the glob pattern, then sort by filename.
Python sorted is a stable sort; insertion sort is stable as well, and chunk
filenames in a directory are distinct, so the order is the unique one. -/
def sortedParts (entries : List DirEntry) : List DirEntry :=
  List.insertionSort entryLe (entries.filter (fun e => isPartFile e.1))

/-- Outcome of merge_parts: the boolean result, the output file written (none
when the function fails before writing), the filenames warned about, and
whether the over-an-hour advisory was printed. -/
structure MergeResult where
  success : Bool
  output : Option WavFile
  warnings : List (List Char)
  advisory : Bool
deriving DecidableEq

/-- The merge body once the sorted listing is known (src/main.py lines
173-196).  The loop over part_files[1:] concatenates the frame bytes and
records a warning filename whenever the parameter tuple differs from that of
the first file.  The output nframes is what the wave module records on close:
writeframes patches the header to the byte count actually written divided by
the frame size (nchannels times sampwidth); the other parameter fields are
those of the first file, as set by setparams.  The advisory compares
nframes/framerate of the FIRST file (the params local variable) with 3600;
the comparison is modelled exactly over the rationals, which agrees with the
Python float comparison for all values a WAV header can hold. -/
def mergePartsAux : List DirEntry → MergeResult
  | [] => { success := false, output := none, warnings := [], advisory := false }
  | f0 :: rest =>
    let params := f0.2.params
    let fw := rest.foldl (fun acc e =>
      (acc.1 ++ e.2.frames,
       if e.2.params = params then acc.2 else acc.2 ++ [e.1]))
      (f0.2.frames, ([] : List (List Char)))
    { success := true
      output := some
        { params := { params with
            nframes := fw.1.length / (params.nchannels * params.sampwidth) }
          frames := fw.1 }
      warnings := fw.2
      advisory := decide (3600 * params.framerate < params.nframes) }

/-- Models merge_parts (src/main.py lines 167-196) on a scratch directory
listing given in arbitrary order. -/
def mergeParts (entries : List DirEntry) : MergeResult :=
  mergePartsAux (sortedParts entries)

/-- Closed form of the merge loop: the frames accumulate in listing order and
the warnings are exactly the filenames of the parts whose parameter tuple
differs from the reference. -/
theorem mergeFold_spec (params : WavParams) :
    ∀ (rest : List DirEntry) (fr : Bytes) (ws : List (List Char)),
      rest.foldl (fun acc e =>
        (acc.1 ++ e.2.frames,
         if e.2.params = params then acc.2 else acc.2 ++ [e.1])) (fr, ws)
      = (fr ++ (rest.map (fun e => e.2.frames)).flatten,
         ws ++ (rest.filter (fun e => decide (e.2.params ≠ params))).map
           (fun e => e.1)) := by
  intro rest
  induction rest with
  | nil => intro fr ws; simp
  | cons e es ih =>
    intro fr ws
    rw [List.foldl_cons]
    by_cases he : e.2.params = params
    · rw [if_pos he, ih]
      simp [List.filter_cons, he, List.append_assoc]
    · rw [if_neg he, ih]
      simp [List.filter_cons, he, List.append_assoc]

theorem mergePartsAux_eq (f0 : DirEntry) (rest : List DirEntry) :
    mergePartsAux (f0 :: rest)
      = { success := true
          output := some
            { params := { f0.2.params with
                nframes := (f0.2.frames ++ (rest.map (fun e => e.2.frames)).flatten).length
                  / (f0.2.params.nchannels * f0.2.params.sampwidth) }
              frames := f0.2.frames ++ (rest.map (fun e => e.2.frames)).flatten }
          warnings := (rest.filter (fun e => decide (e.2.params ≠ f0.2.params))).map
            (fun e => e.1)
          advisory := decide (3600 * f0.2.params.framerate < f0.2.params.nframes) } := by
  rw [mergePartsAux]
  rw [mergeFold_spec]
  simp

/-- Shared content of C9 and C10: in a run of merge_parts whose sorted chunk
listing is f0 followed by rest, any later part whose parameter tuple differs
from the reference tuple of f0 gets a warning under its filename, and the
merge still succeeds with the frames of all listed parts concatenated in
listing order. -/
theorem merge_warns_of_params_ne (entries : List DirEntry)
    (f0 : DirEntry) (rest : List DirEntry)
    (hsort : sortedParts entries = f0 :: rest)
    (e : DirEntry) (he : e ∈ rest) (hne : e.2.params ≠ f0.2.params) :
    e.1 ∈ (mergeParts entries).warnings ∧
    (mergeParts entries).success = true ∧
    ∃ w, (mergeParts entries).output = some w ∧
      w.frames = f0.2.frames ++ (rest.map (fun x => x.2.frames)).flatten := by
  rw [mergeParts, hsort, mergePartsAux_eq]
  refine ⟨?_, rfl, ⟨_, rfl, rfl⟩⟩
  exact List.mem_map.mpr ⟨e, List.mem_filter.mpr ⟨he, by simp [hne]⟩, rfl⟩

/-- C9.  A chunk after the first whose parameter tuple differs from the
reference (first chunk's) gets a non-fatal warning: its filename is recorded,
its frames are still concatenated into the output in listing position, and
the merge reports success regardless of the mismatch. -/
theorem C9_format_mismatch_nonfatal (entries : List DirEntry)
    (f0 : DirEntry) (rest : List DirEntry)
    (hsort : sortedParts entries = f0 :: rest)
    (e : DirEntry) (he : e ∈ rest) (hne : e.2.params ≠ f0.2.params) :
    e.1 ∈ (mergeParts entries).warnings ∧
    (mergeParts entries).success = true ∧
    ∃ w, (mergeParts entries).output = some w ∧
      w.frames = f0.2.frames ++ (rest.map (fun x => x.2.frames)).flatten :=
  merge_warns_of_params_ne entries f0 rest hsort e he hne

/-- C10.  The consistency check compares the whole getparams tuple, so two
chunks agreeing on sample rate, channel count and bit depth but differing in
frame count still trigger the warning, and the frames are concatenated
regardless. -/
theorem C10_nframes_mismatch_warns (entries : List DirEntry)
    (f0 : DirEntry) (rest : List DirEntry)
    (hsort : sortedParts entries = f0 :: rest)
    (e : DirEntry) (he : e ∈ rest)
    (hch : e.2.params.nchannels = f0.2.params.nchannels)
    (hsw : e.2.params.sampwidth = f0.2.params.sampwidth)
    (hfr : e.2.params.framerate = f0.2.params.framerate)
    (hnf : e.2.params.nframes ≠ f0.2.params.nframes) :
    e.1 ∈ (mergeParts entries).warnings ∧
    (mergeParts entries).success = true ∧
    ∃ w, (mergeParts entries).output = some w ∧
      w.frames = f0.2.frames ++ (rest.map (fun x => x.2.frames)).flatten :=
  merge_warns_of_params_ne entries f0 rest hsort e he
    (fun h => hnf (congrArg WavParams.nframes h))

/-- A sample chunk: 8-bit mono 8000 Hz, one frame. -/
def wavA : WavFile := ⟨⟨1, 1, 8000, 1, [], []⟩, [0]⟩

/-- A second sample chunk with the same parameter tuple as wavA. -/
def wavB : WavFile := ⟨⟨1, 1, 8000, 1, [], []⟩, [1]⟩

/-- A chunk differing from wavA only in sample rate. -/
def wavDiffRate : WavFile := ⟨⟨1, 1, 16000, 1, [], []⟩, [2]⟩

/-- A chunk differing from wavA only in frame count. -/
def wavDiffFrames : WavFile := ⟨⟨1, 1, 8000, 5, [], []⟩, [3]⟩

/-- A two-frame 8-bit chunk. -/
def wavTwo : WavFile := ⟨⟨1, 1, 8000, 2, [], []⟩, [5, 6]⟩

/-- A 16-bit chunk holding one frame of two bytes. -/
def wavWide : WavFile := ⟨⟨1, 2, 8000, 1, [], []⟩, [7, 8]⟩

/-- A one-hour-long first chunk: 8000 frames at 8000 Hz is one second, and
28800000 frames is exactly 3600 seconds. -/
def wavSecond : WavFile := ⟨⟨1, 1, 8000, 8000, [], []⟩, [4]⟩

/-- A chunk whose header announces 3600 seconds of audio at 8000 Hz. -/
def wavHour : WavFile := ⟨⟨1, 1, 8000, 28800000, [], []⟩, [9]⟩

theorem C9_format_mismatch_nonfatal_witness :
    (sortedParts [(partName 1, wavA), (partName 2, wavDiffRate)]
        = (partName 1, wavA) :: [(partName 2, wavDiffRate)] ∧
      (partName 2, wavDiffRate) ∈ [(partName 2, wavDiffRate)] ∧
      wavDiffRate.params ≠ wavA.params) ∧
    ((partName 2)
        ∈ (mergeParts [(partName 1, wavA), (partName 2, wavDiffRate)]).warnings ∧
      (mergeParts [(partName 1, wavA), (partName 2, wavDiffRate)]).success = true ∧
      ∃ w, (mergeParts [(partName 1, wavA), (partName 2, wavDiffRate)]).output = some w ∧
        w.frames = wavA.frames
          ++ ([(partName 2, wavDiffRate)].map (fun x => x.2.frames)).flatten) :=
  ⟨⟨by decide, by decide, by decide⟩,
   C9_format_mismatch_nonfatal [(partName 1, wavA), (partName 2, wavDiffRate)]
     (partName 1, wavA) [(partName 2, wavDiffRate)] (by decide)
     (partName 2, wavDiffRate) (by decide) (by decide)⟩

theorem C10_nframes_mismatch_warns_witness :
    (sortedParts [(partName 1, wavA), (partName 2, wavDiffFrames)]
        = (partName 1, wavA) :: [(partName 2, wavDiffFrames)] ∧
      (partName 2, wavDiffFrames) ∈ [(partName 2, wavDiffFrames)] ∧
      wavDiffFrames.params.nchannels = wavA.params.nchannels ∧
      wavDiffFrames.params.sampwidth = wavA.params.sampwidth ∧
      wavDiffFrames.params.framerate = wavA.params.framerate ∧
      wavDiffFrames.params.nframes ≠ wavA.params.nframes) ∧
    ((partName 2)
        ∈ (mergeParts [(partName 1, wavA), (partName 2, wavDiffFrames)]).warnings ∧
      (mergeParts [(partName 1, wavA), (partName 2, wavDiffFrames)]).success = true ∧
      ∃ w, (mergeParts [(partName 1, wavA), (partName 2, wavDiffFrames)]).output = some w ∧
        w.frames = wavA.frames
          ++ ([(partName 2, wavDiffFrames)].map (fun x => x.2.frames)).flatten) :=
  ⟨⟨by decide, by decide, by decide, by decide, by decide, by decide⟩,
   C10_nframes_mismatch_warns [(partName 1, wavA), (partName 2, wavDiffFrames)]
     (partName 1, wavA) [(partName 2, wavDiffFrames)] (by decide)
     (partName 2, wavDiffFrames) (by decide)
     (by decide) (by decide) (by decide) (by decide)⟩

/-- C8 (the code disagrees with the claim).  merge_parts computes the checked
duration from the params tuple of the FIRST part only (line 192 divides
params.nframes, read from part_files[0], by the frame rate), not from the
total frame count.  Here the two merged chunks announce 8000 and 28800000
frames at 8000 Hz: the total duration is 3601 seconds, beyond the one-hour
limit, yet no advisory is surfaced because the first chunk alone lasts one
second.  The merge nevertheless reports success, as the claim says. -/
theorem C8_advisory_uses_first_chunk_nframes :
    (mergeParts [(partName 1, wavSecond), (partName 2, wavHour)]).advisory = false ∧
    (mergeParts [(partName 1, wavSecond), (partName 2, wavHour)]).success = true ∧
    3600 * wavSecond.params.framerate
      < wavSecond.params.nframes + wavHour.params.nframes := by
  refine ⟨by decide, by decide, by decide⟩

/-- Strict filename order on directory entries. -/
def entryLt (a b : DirEntry) : Prop := lexLtB a.1 b.1 = true

theorem lexLtB_irrefl (l : List Char) : lexLtB l l = false := by
  cases h : lexLtB l l with
  | false => rfl
  | true =>
    have hfalse := lexLtB_asymm _ _ h
    rw [h] at hfalse
    exact hfalse

/-- If the scratch listing is a permutation of a list of part files already
sorted strictly by filename, the sorted glob listing that merge_parts works
through is exactly that list. -/
theorem sortedParts_eq_of_perm (entries L : List DirEntry)
    (hperm : entries.Perm L)
    (hpart : ∀ e ∈ L, isPartFile e.1 = true)
    (hsorted : List.Pairwise entryLt L) :
    sortedParts entries = L := by
  haveI : IsAntisymm DirEntry entryLt := ⟨fun a b h h' => by
    have hfalse := lexLtB_asymm _ _ h
    have h'' : lexLtB b.1 a.1 = true := h'
    rw [h''] at hfalse
    exact absurd hfalse (by simp)⟩
  have hfilterL : L.filter (fun e => isPartFile e.1) = L :=
    List.filter_eq_self.mpr hpart
  have hfperm : (entries.filter (fun e => isPartFile e.1)).Perm L := by
    have h := hperm.filter (fun e => isPartFile e.1)
    rwa [hfilterL] at h
  have hsperm : (sortedParts entries).Perm L :=
    (List.perm_insertionSort entryLe _).trans hfperm
  have hle : List.Pairwise entryLe (sortedParts entries) :=
    List.sorted_insertionSort entryLe _
  have hneL : List.Pairwise (fun a b : DirEntry => a.1 ≠ b.1) L := by
    apply List.Pairwise.imp_of_mem ?_ hsorted
    intro a b _ _ hab heq
    have hab' : lexLtB a.1 b.1 = true := hab
    rw [heq, lexLtB_irrefl] at hab'
    exact absurd hab' (by simp)
  have hnes : List.Pairwise (fun a b : DirEntry => a.1 ≠ b.1) (sortedParts entries) := by
    refine (List.Perm.pairwise_iff ?_ hsperm).mpr hneL
    intro a b h heq
    exact h heq.symm
  have hlt : List.Pairwise entryLt (sortedParts entries) := by
    apply List.Pairwise.imp ?_ (List.Pairwise.and hle hnes)
    intro a b hab
    obtain ⟨hleab, hneab⟩ := hab
    have hleab' : lexLeB a.1 b.1 = true := hleab
    rw [lexLeB] at hleab'
    simp only [Bool.not_eq_true'] at hleab'
    cases hab2 : lexLtB a.1 b.1 with
    | true => exact hab2
    | false => exact absurd (lexLtB_eq_of_not_lt _ _ hab2 hleab') hneab
  exact List.eq_of_perm_of_sorted hsperm hlt hsorted

theorem sum_map_mul_const {α : Type} (l : List α) (f : α → Nat) (c : Nat) :
    (l.map (fun x => f x * c)).sum = (l.map f).sum * c := by
  induction l with
  | nil => simp
  | cons a t ih => simp [ih, Nat.add_mul]

/-- C4 (amended).  For a non-empty collection of chunk artifacts whose indices
are all below 1000 (so the zero-padded filenames sort lexicographically in
index order), held in the scratch area in any order, the merge succeeds and
produces one artifact whose parameter fields other than the frame count equal
the first (lowest-index) chunk's, and whose frame payload is the
concatenation of all chunks' frames in ascending index order — whatever the
chunks' formats or payloads.  When moreover every chunk is a well-formed WAV
sharing the first chunk's (positive) frame geometry, i.e. channel count and
sample width, the recorded frame count is the sum of the inputs' frame
counts; that conditional clause is part of the conclusion, so the collections
it does not cover still get the format and payload guarantees. -/
theorem C4_merge_concatenates (entries : List DirEntry)
    (c0 : Nat × WavFile) (ctail : List (Nat × WavFile))
    (hmono : List.Pairwise (fun a b => a.1 < b.1) (c0 :: ctail))
    (hbound : ∀ c ∈ c0 :: ctail, c.1 < 1000)
    (hperm : entries.Perm ((c0 :: ctail).map (fun c => (partName c.1, c.2)))) :
    (mergeParts entries).success = true ∧
    ∃ w, (mergeParts entries).output = some w ∧
      w.frames = ((c0 :: ctail).map (fun c => c.2.frames)).flatten ∧
      w.params.nchannels = c0.2.params.nchannels ∧
      w.params.sampwidth = c0.2.params.sampwidth ∧
      w.params.framerate = c0.2.params.framerate ∧
      w.params.comptype = c0.2.params.comptype ∧
      w.params.compname = c0.2.params.compname ∧
      ((∀ c ∈ c0 :: ctail,
          c.2.frames.length
            = c.2.params.nframes * (c.2.params.nchannels * c.2.params.sampwidth) ∧
          c.2.params.nchannels = c0.2.params.nchannels ∧
          c.2.params.sampwidth = c0.2.params.sampwidth) →
        0 < c0.2.params.nchannels * c0.2.params.sampwidth →
        w.params.nframes = ((c0 :: ctail).map (fun c => c.2.params.nframes)).sum) := by
  have hsort : sortedParts entries = (c0 :: ctail).map (fun c => (partName c.1, c.2)) := by
    apply sortedParts_eq_of_perm _ _ hperm
    · intro e he
      obtain ⟨c, _, rfl⟩ := List.mem_map.mp he
      exact isPartFile_partName c.1
    · rw [List.pairwise_map]
      apply List.Pairwise.imp_of_mem ?_ hmono
      intro a b _ hb hlt
      exact partName_lt hlt (hbound b hb)
  have hflat : ((ctail.map (fun c => (partName c.1, c.2))).map
      (fun e => e.2.frames)) = ctail.map (fun c => c.2.frames) := by
    rw [List.map_map]
    rfl
  rw [mergeParts, hsort, List.map_cons, mergePartsAux_eq]
  refine ⟨rfl, _, rfl, ?_, rfl, rfl, rfl, rfl, rfl, ?_⟩
  · simp only [hflat, List.map_cons, List.flatten_cons]
  · intro hgeo hfs
    have hlen : (c0.2.frames ++ (ctail.map (fun c => c.2.frames)).flatten).length
        = (((c0 :: ctail).map (fun c => c.2.params.nframes)).sum)
          * (c0.2.params.nchannels * c0.2.params.sampwidth) := by
      have hmap : (c0 :: ctail).map (fun c => c.2.frames.length)
          = (c0 :: ctail).map (fun c =>
              c.2.params.nframes * (c0.2.params.nchannels * c0.2.params.sampwidth)) := by
        apply List.map_congr_left
        intro c hc
        obtain ⟨hwf, hch, hsw⟩ := hgeo c hc
        rw [hwf, hch, hsw]
      have hsum := congrArg List.sum hmap
      rw [sum_map_mul_const] at hsum
      simp only [List.map_cons, List.sum_cons] at hsum
      rw [List.length_append, List.length_flatten, List.map_map]
      exact hsum
    simp only [hflat, hlen]
    exact Nat.mul_div_cancel _ hfs

/-- C4 (counterexample to the claim as stated).  First: with chunk indices 999
and 1000 the zero-padded filenames no longer sort in index order
(part_1000.wav sorts before part_999.wav), so the merged payload is NOT the
concatenation in ascending index order.  Second: the recorded frame count is
the byte length divided by the first chunk's frame size, which differs from
the sum of the inputs' frame counts when a later chunk has another sample
width (here 4 bytes at one byte per frame give 4 frames, not 2+1). -/
theorem C4_merge_counterexample :
    ((mergeParts [(partName 999, wavA), (partName 1000, wavB)]).output.map
        (fun w => w.frames)) = some (wavB.frames ++ wavA.frames) ∧
    ((mergeParts [(partName 999, wavA), (partName 1000, wavB)]).output.map
        (fun w => w.frames)) ≠ some (wavA.frames ++ wavB.frames) ∧
    ((mergeParts [(partName 1, wavTwo), (partName 2, wavWide)]).output.map
        (fun w => w.params.nframes))
      ≠ some (wavTwo.params.nframes + wavWide.params.nframes) := by
  refine ⟨by decide, by decide, by decide⟩

theorem C4_merge_concatenates_witness :
    (List.Pairwise (fun a b => a.1 < b.1) [(1, wavA), (2, wavB)] ∧
      (∀ c ∈ [(1, wavA), (2, wavB)], c.1 < 1000) ∧
      ([(partName 2, wavB), (partName 1, wavA)] : List DirEntry).Perm
        ([(1, wavA), (2, wavB)].map (fun c => (partName c.1, c.2)))) ∧
    ((mergeParts [(partName 2, wavB), (partName 1, wavA)]).success = true ∧
      ∃ w, (mergeParts [(partName 2, wavB), (partName 1, wavA)]).output = some w ∧
        w.frames = ([(1, wavA), (2, wavB)].map (fun c => c.2.frames)).flatten ∧
        w.params.nchannels = wavA.params.nchannels ∧
        w.params.sampwidth = wavA.params.sampwidth ∧
        w.params.framerate = wavA.params.framerate ∧
        w.params.comptype = wavA.params.comptype ∧
        w.params.compname = wavA.params.compname ∧
        ((∀ c ∈ [(1, wavA), (2, wavB)],
            c.2.frames.length
              = c.2.params.nframes * (c.2.params.nchannels * c.2.params.sampwidth) ∧
            c.2.params.nchannels = wavA.params.nchannels ∧
            c.2.params.sampwidth = wavA.params.sampwidth) →
          0 < wavA.params.nchannels * wavA.params.sampwidth →
          w.params.nframes
            = ([(1, wavA), (2, wavB)].map (fun c => c.2.params.nframes)).sum)) :=
  ⟨⟨by decide, by decide, by decide⟩,
   C4_merge_concatenates [(partName 2, wavB), (partName 1, wavA)]
     (1, wavA) [(2, wavB)] (by decide) (by decide) (by decide)⟩

/-- State of the synthesis stage: the scratch directory contents (filename to
byte payload) and the log of network calls made so far, each recorded as
(fragment index, attempt number).  The 1-second pause between attempts is a
timing effect and is not part of the state. -/
structure SynthState where
  entries : List (List Char × Bytes)
  calls : List (Nat × Nat)
deriving DecidableEq

/-- Writing a file: replace the content stored under the name, or append the
new file at the end of the listing. -/
def writeFile : List (List Char × Bytes) → List Char → Bytes → List (List Char × Bytes)
  | [], n, c => [(n, c)]
  | (m, d) :: rest, n, c =>
    if m = n then (n, c) :: rest else (m, d) :: writeFile rest n c

/-- Reading the file stored under a name, if any. -/
def lookupName (n : List Char) : List (List Char × Bytes) → Option Bytes
  | [] => none
  | (m, b) :: rest => if m = n then some b else lookupName n rest

/-- The outcome of one synthesis attempt for a fragment index and attempt
number: none models any exception raised in the try block (transport failure,
timeout, non-success HTTP status); some gives the response payload. -/
abbrev Oracle := Nat → Nat → Option Bytes

/-- The retry loop of tts_synthesize (src/main.py lines 132-158) over the
remaining attempt numbers.  Every attempt issues one network call; on the
first success the payload is written to the part file and the loop reports
success; when the attempts are exhausted the fragment has failed. -/
def tryAttempts (oracle : Oracle) (idx : Nat) :
    List Nat → SynthState → SynthState × Bool
  | [], st => (st, false)
  | a :: rest, st =>
    match oracle idx a with
    | some audio =>
      ({ entries := writeFile st.entries (partName idx) audio,
         calls := st.calls ++ [(idx, a)] }, true)
    | none => tryAttempts oracle idx rest { st with calls := st.calls ++ [(idx, a)] }

/-- The fragment loop of tts_synthesize (src/main.py lines 130-162),
enumerating the remaining fragments from the given 1-based index.  A fragment
that fails every attempt aborts the stage with failure; otherwise the loop
continues with the next fragment. -/
def synthLoop (oracle : Oracle) : Nat → List PyStr → SynthState → SynthState × Bool
  | _, [], st => (st, true)
  | idx, _ :: rest, st =>
    match tryAttempts oracle idx (List.range' 1 RETRY_COUNT) st with
    | (st1, true) => synthLoop oracle (idx + 1) rest st1
    | (st1, false) => (st1, false)

/-- The outcome of tts_synthesize: final scratch contents, network calls made,
and the boolean stage result. -/
structure SynthOutcome where
  scratch : List (List Char × Bytes)
  calls : List (Nat × Nat)
  success : Bool
deriving DecidableEq

/-- Models tts_synthesize (src/main.py lines 105-164).  The scratch directory
argument is none when the directory does not exist yet (mkdir on line 111
then creates it empty); if it exists and holds any entry, the stage refuses
to run before making any network call.  Fragments are enumerated from 1. -/
def tts_synthesize (oracle : Oracle) (text : PyStr)
    (scratch0 : Option (List (List Char × Bytes))) : SynthOutcome :=
  let dir0 := match scratch0 with
    | none => []
    | some es => es
  if dir0 ≠ [] then { scratch := dir0, calls := [], success := false }
  else
    let fragments := mkFragments LETTERS_PER_FRADMENT (splitNl text)
    let r := synthLoop oracle 1 fragments { entries := dir0, calls := [] }
    { scratch := r.1.entries, calls := r.1.calls, success := r.2 }

/-- The payload of the first successful attempt among the given attempt
numbers, if any. -/
def firstHit (oracle : Oracle) (idx : Nat) : List Nat → Option Bytes
  | [] => none
  | a :: rest =>
    match oracle idx a with
    | some b => some b
    | none => firstHit oracle idx rest

theorem lookupName_writeFile_self (n : List Char) (c : Bytes) :
    ∀ es : List (List Char × Bytes), lookupName n (writeFile es n c) = some c := by
  intro es
  induction es with
  | nil => simp [writeFile, lookupName]
  | cons e rest ih =>
    rw [writeFile]
    by_cases h : e.1 = n
    · rw [if_pos h, lookupName, if_pos rfl]
    · rw [if_neg h, lookupName, if_neg h]
      exact ih

theorem lookupName_writeFile_other (n m : List Char) (c : Bytes) (h : m ≠ n) :
    ∀ es : List (List Char × Bytes),
      lookupName n (writeFile es m c) = lookupName n es := by
  intro es
  induction es with
  | nil => simp [writeFile, lookupName, h]
  | cons e rest ih =>
    rw [writeFile]
    by_cases he : e.1 = m
    · rw [if_pos he, lookupName, if_neg h, lookupName, if_neg (he ▸ h)]
    · rw [if_neg he, lookupName, lookupName]
      by_cases hen : e.1 = n
      · rw [if_pos hen, if_pos hen]
      · rw [if_neg hen, if_neg hen]
        exact ih

theorem tryAttempts_all_fail (oracle : Oracle) (idx : Nat) :
    ∀ (as : List Nat) (st : SynthState),
      (∀ a ∈ as, oracle idx a = none) →
      tryAttempts oracle idx as st
        = ({ st with calls := st.calls ++ as.map (fun a => (idx, a)) }, false) := by
  intro as
  induction as with
  | nil => intro st _; simp [tryAttempts]
  | cons a rest ih =>
    intro st hfail
    rw [tryAttempts, hfail a (by simp)]
    rw [ih _ (fun x hx => hfail x (List.mem_cons_of_mem _ hx))]
    simp

theorem tryAttempts_first_hit (oracle : Oracle) (idx : Nat) :
    ∀ (as : List Nat) (st : SynthState) (b : Bytes),
      firstHit oracle idx as = some b →
      ∃ pre, tryAttempts oracle idx as st
        = ({ entries := writeFile st.entries (partName idx) b,
             calls := st.calls ++ pre }, true)
        ∧ ∀ c ∈ pre, c.1 = idx := by
  intro as
  induction as with
  | nil => intro st b h; rw [firstHit] at h; cases h
  | cons a rest ih =>
    intro st b h
    rw [firstHit] at h
    rw [tryAttempts]
    cases horacle : oracle idx a with
    | some b2 =>
      rw [horacle] at h
      simp only [Option.some.injEq] at h
      subst h
      exact ⟨[(idx, a)], rfl, by simp⟩
    | none =>
      rw [horacle] at h
      obtain ⟨pre, heq, hpre⟩ :=
        ih { st with calls := st.calls ++ [(idx, a)] } b h
      refine ⟨(idx, a) :: pre, ?_, ?_⟩
      · rw [heq]
        simp
      · intro c hc
        rcases List.mem_cons.mp hc with h1 | h1
        · rw [h1]
        · exact hpre c h1

/-- Behavior of the fragment loop when the fragment k positions ahead fails
all its attempts while every earlier fragment succeeds on some attempt: the
loop stops with failure right there; the calls it adds all concern fragments
between idx and idx+k; each earlier fragment's chunk is on disk with the
payload of its first successful attempt; and no other name is touched. -/
theorem synthLoop_fail_spec (oracle : Oracle) :
    ∀ (k : Nat) (frags : List PyStr) (idx : Nat) (st : SynthState),
      k < frags.length →
      (∀ a ∈ List.range' 1 RETRY_COUNT, oracle (idx + k) a = none) →
      (∀ j, j < k → firstHit oracle (idx + j) (List.range' 1 RETRY_COUNT) ≠ none) →
      ∃ st1,
        synthLoop oracle idx frags st = (st1, false) ∧
        (∃ newcalls, st1.calls = st.calls ++ newcalls ∧
          ∀ c ∈ newcalls, idx ≤ c.1 ∧ c.1 ≤ idx + k) ∧
        (∀ j, j < k → lookupName (partName (idx + j)) st1.entries
          = firstHit oracle (idx + j) (List.range' 1 RETRY_COUNT)) ∧
        (∀ n, (∀ j, j < k → n ≠ partName (idx + j)) →
          lookupName n st1.entries = lookupName n st.entries) := by
  intro k
  induction k with
  | zero =>
    intro frags idx st hk hfail _
    cases frags with
    | nil => simp at hk
    | cons f rest =>
      rw [synthLoop]
      rw [tryAttempts_all_fail oracle idx _ st (by simpa using hfail)]
      refine ⟨_, rfl, ⟨(List.range' 1 RETRY_COUNT).map (fun a => (idx, a)), rfl, ?_⟩,
        by omega, fun n _ => rfl⟩
      intro c hc
      obtain ⟨a, _, rfl⟩ := List.mem_map.mp hc
      omega
  | succ k ih =>
    intro frags idx st hk hfail hprev
    cases frags with
    | nil => simp at hk
    | cons f rest =>
      have hhit : firstHit oracle idx (List.range' 1 RETRY_COUNT) ≠ none := by
        have := hprev 0 (by omega)
        simpa using this
      obtain ⟨b, hb⟩ := Option.ne_none_iff_exists'.mp hhit
      obtain ⟨pre, heq, hpre⟩ := tryAttempts_first_hit oracle idx _ st b hb
      rw [synthLoop, heq]
      have hfail' : ∀ a ∈ List.range' 1 RETRY_COUNT, oracle (idx + 1 + k) a = none := by
        intro a ha
        have := hfail a ha
        rwa [show idx + 1 + k = idx + (k + 1) by omega]
      have hprev' : ∀ j, j < k →
          firstHit oracle (idx + 1 + j) (List.range' 1 RETRY_COUNT) ≠ none := by
        intro j hj
        have := hprev (j + 1) (by omega)
        rwa [show idx + 1 + j = idx + (j + 1) by omega]
      obtain ⟨st1, hloop, ⟨newcalls, hcalls, hbound⟩, hlook, hpres⟩ :=
        ih rest (idx + 1)
          { entries := writeFile st.entries (partName idx) b,
            calls := st.calls ++ pre }
          (by simpa using hk) hfail' hprev'
      refine ⟨st1, hloop, ⟨pre ++ newcalls, ?_, ?_⟩, ?_, ?_⟩
      · rw [hcalls]; simp
      · intro c hc
        rcases List.mem_append.mp hc with h1 | h1
        · have := hpre c h1; omega
        · have := hbound c h1; omega
      · intro j hj
        cases j with
        | zero =>
          have hne : ∀ j2, j2 < k → partName (idx + 0) ≠ partName (idx + 1 + j2) := by
            intro j2 _ hcontra
            have := partName_injective hcontra
            omega
          rw [hpres _ hne]
          simp only [Nat.add_zero]
          rw [lookupName_writeFile_self, hb]
        | succ j =>
          have := hlook j (by omega)
          rwa [show idx + 1 + j = idx + (j + 1) by omega] at this
      · intro n hn
        have hn' : ∀ j, j < k → n ≠ partName (idx + 1 + j) := by
          intro j hj
          have := hn (j + 1) (by omega)
          rwa [show idx + (j + 1) = idx + 1 + j by omega] at this
        rw [hpres n hn']
        exact lookupName_writeFile_other _ _ _ (fun h => hn 0 (by omega) h.symm) _

theorem tts_synthesize_empty_dir (oracle : Oracle) (text : PyStr) :
    tts_synthesize oracle text (some [])
      = { scratch := (synthLoop oracle 1 (mkFragments LETTERS_PER_FRADMENT (splitNl text))
            { entries := [], calls := [] }).1.entries,
          calls := (synthLoop oracle 1 (mkFragments LETTERS_PER_FRADMENT (splitNl text))
            { entries := [], calls := [] }).1.calls,
          success := (synthLoop oracle 1 (mkFragments LETTERS_PER_FRADMENT (splitNl text))
            { entries := [], calls := [] }).2 } := rfl

/-- C2.  In a run of the synthesis stage (started on an empty scratch area)
whose fragment k+1 (1-based) fails all three attempts while fragments 1..k
each succeed on some attempt, the stage returns failure, no network call is
made for any fragment of larger index, every chunk already written for the
earlier fragments is still on disk with the payload of that fragment's first
successful attempt, and nothing else was written. -/
theorem C2_retry_exhaustion_aborts (oracle : Oracle) (text : PyStr) (k : Nat)
    (hk : k < (mkFragments LETTERS_PER_FRADMENT (splitNl text)).length)
    (hfail : ∀ a ∈ List.range' 1 RETRY_COUNT, oracle (1 + k) a = none)
    (hprev : ∀ j, j < k → firstHit oracle (1 + j) (List.range' 1 RETRY_COUNT) ≠ none) :
    (tts_synthesize oracle text (some [])).success = false ∧
    (∀ c ∈ (tts_synthesize oracle text (some [])).calls, c.1 ≤ 1 + k) ∧
    (∀ j, j < k →
      lookupName (partName (1 + j)) (tts_synthesize oracle text (some [])).scratch
        = firstHit oracle (1 + j) (List.range' 1 RETRY_COUNT)) ∧
    (∀ n, (∀ j, j < k → n ≠ partName (1 + j)) →
      lookupName n (tts_synthesize oracle text (some [])).scratch = none) := by
  obtain ⟨st1, hloop, ⟨newcalls, hcalls, hbound⟩, hlook, hpres⟩ :=
    synthLoop_fail_spec oracle k (mkFragments LETTERS_PER_FRADMENT (splitNl text)) 1
      { entries := [], calls := [] } hk hfail hprev
  rw [tts_synthesize_empty_dir, hloop]
  refine ⟨rfl, ?_, hlook, ?_⟩
  · intro c hc
    simp only [hcalls, List.nil_append] at hc
    exact (hbound c hc).2
  · intro n hn
    rw [hpres n hn]
    rfl

theorem C2_retry_exhaustion_aborts_witness :
    (0 < (mkFragments LETTERS_PER_FRADMENT (splitNl ['h'])).length ∧
      (∀ a ∈ List.range' 1 RETRY_COUNT, (fun _ _ => none : Oracle) (1 + 0) a = none) ∧
      (∀ j, j < 0 →
        firstHit (fun _ _ => none : Oracle) (1 + j) (List.range' 1 RETRY_COUNT) ≠ none)) ∧
    ((tts_synthesize (fun _ _ => none : Oracle) ['h'] (some [])).success = false ∧
      (∀ c ∈ (tts_synthesize (fun _ _ => none : Oracle) ['h'] (some [])).calls,
        c.1 ≤ 1 + 0) ∧
      (∀ j, j < 0 →
        lookupName (partName (1 + j))
          (tts_synthesize (fun _ _ => none : Oracle) ['h'] (some [])).scratch
          = firstHit (fun _ _ => none : Oracle) (1 + j) (List.range' 1 RETRY_COUNT)) ∧
      (∀ n, (∀ j, j < 0 → n ≠ partName (1 + j)) →
        lookupName n (tts_synthesize (fun _ _ => none : Oracle) ['h'] (some [])).scratch
          = none)) :=
  ⟨⟨by decide, by decide, by omega⟩,
   C2_retry_exhaustion_aborts (fun _ _ => none) ['h'] 0
     (by decide) (by decide) (by omega)⟩

/-- C3.  Started while the scratch directory exists and holds any entry, the
synthesis stage fails with zero network calls and leaves the directory
contents untouched; started while the directory is absent, it creates the
directory (empty) and proceeds exactly as a run on an existing empty
directory. -/
theorem C3_nonempty_scratch_refuses (oracle : Oracle) (text : PyStr)
    (es : List (List Char × Bytes)) (hne : es ≠ []) :
    (tts_synthesize oracle text (some es)).success = false ∧
    (tts_synthesize oracle text (some es)).calls = [] ∧
    (tts_synthesize oracle text (some es)).scratch = es ∧
    tts_synthesize oracle text none = tts_synthesize oracle text (some []) := by
  have h : tts_synthesize oracle text (some es)
      = { scratch := es, calls := [], success := false } := by
    rw [tts_synthesize]
    simp only [if_pos hne]
  rw [h]
  exact ⟨rfl, rfl, rfl, rfl⟩

theorem C3_nonempty_scratch_refuses_witness :
    (([(['s'], [0])] : List (List Char × Bytes)) ≠ [] ∧
      (tts_synthesize (fun _ _ => some [1]) ['h'] (some [(['s'], [0])])).success = false ∧
      (tts_synthesize (fun _ _ => some [1]) ['h'] (some [(['s'], [0])])).calls = [] ∧
      (tts_synthesize (fun _ _ => some [1]) ['h'] (some [(['s'], [0])])).scratch
        = [(['s'], [0])] ∧
      tts_synthesize (fun _ _ => some [1]) ['h'] none
        = tts_synthesize (fun _ _ => some [1]) ['h'] (some [])) :=
  ⟨by decide,
   C3_nonempty_scratch_refuses (fun _ _ => some [1]) ['h'] [(['s'], [0])] (by decide)⟩

theorem foldl_fragStep_all_blank (T : Nat) :
    ∀ l : List PyStr, (∀ p ∈ l, isBlank p = true) → l.foldl (fragStep T) [] = [] := by
  intro l
  induction l with
  | nil => intro _; rfl
  | cons p ps ih =>
    intro h
    rw [List.foldl_cons, fragStep_blank (h p (by simp))]
    exact ih fun q hq => h q (List.mem_cons_of_mem _ hq)

/-- C6 (amended).  An input whose paragraphs are all empty or whitespace-only
yields an empty fragment sequence; the synthesis stage then performs zero
network calls, writes nothing, and returns SUCCESS (the code has no guard for
an empty fragment list); the missing-chunks failure only surfaces at the
merge stage, which fails on its empty listing. -/
theorem C6_all_blank_amended (oracle : Oracle) (text : PyStr)
    (hall : ∀ p ∈ splitNl text, isBlank p = true) :
    mkFragments LETTERS_PER_FRADMENT (splitNl text) = [] ∧
    (tts_synthesize oracle text (some [])).success = true ∧
    (tts_synthesize oracle text (some [])).calls = [] ∧
    (tts_synthesize oracle text (some [])).scratch = [] ∧
    (mergeParts []).success = false ∧
    (mergeParts []).output = none := by
  have hfrag : mkFragments LETTERS_PER_FRADMENT (splitNl text) = [] := by
    rw [mkFragments, foldl_fragStep_all_blank _ _ hall]
    rfl
  rw [tts_synthesize_empty_dir, hfrag]
  exact ⟨rfl, rfl, rfl, rfl, rfl, rfl⟩

theorem C6_all_blank_amended_witness :
    (∀ p ∈ splitNl [], isBlank p = true) ∧
    (mkFragments LETTERS_PER_FRADMENT (splitNl []) = [] ∧
      (tts_synthesize (fun _ _ => none : Oracle) [] (some [])).success = true ∧
      (tts_synthesize (fun _ _ => none : Oracle) [] (some [])).calls = [] ∧
      (tts_synthesize (fun _ _ => none : Oracle) [] (some [])).scratch = [] ∧
      (mergeParts []).success = false ∧
      (mergeParts []).output = none) :=
  ⟨by decide, C6_all_blank_amended (fun _ _ => none) [] (by decide)⟩

/-- C6 (counterexample to the claim as stated).  On an all-blank input the
Fragmenter does yield no fragments, but the synthesis stage then returns
True: the for loop over the empty fragment list never runs and the function
falls through to its final return True, so the stage reports SUCCESS, not
failure. -/
theorem C6_all_blank_counterexample :
    mkFragments LETTERS_PER_FRADMENT (splitNl []) = [] ∧
    (tts_synthesize (fun _ _ => none : Oracle) [] (some [])).success = true := by
  exact ⟨by decide, by decide⟩
